import Mathlib

/-!
Verification of the demand-driven MIR transformation pipeline
(`src/librustc_mir/transform/mod.rs`).

The source registers three providers: `optimized_mir`, `mir_pass_set` and
`mir_pass`, and gives each running pass a `MirCtxtImpl` context whose
`steal_previous_mir` / `read_previous_mir` accessors resolve the previous
pipeline stage (previous pass in the same set, last pass of the previous
set, or the external `mir_build` provider at the very start).

The embedding below is a state-passing interpreter:

* `Cell` models one `RefCell<Mir>` with an explicit borrow-state machine
  (`std::cell::RefCell` itself is outside the file under verification, so
  its shared/exclusive discipline is modelled from the spec, section 4.4).
* `PState` carries the cell store, the query memo tables (the host query
  system memoizes `mir_pass` and `mir_build`; modelled from the spec,
  section 4.1), the hook log, and the log of actual builder invocations.
* `runF` is the fueled interpreter for the four mutually recursive
  resolvers; `run` saturates the fuel with the call measure, which
  strictly decreases along every recursive call, so `run` is total on
  the recursion that the source performs.
-/

namespace MirTransform

/-- Artifact content is abstracted to a natural number: the pipeline never
inspects the MIR, it only stores, mutates and hands it around. -/
abbrev Mir := Nat

/-- Modelled from the spec: borrow state of one `RefCell` (`ArtifactCell`,
spec section 4.4).  `shared k` stands for `k + 1` live readers, so every
constructor is a legal state and release-after-acquire is the identity. -/
inductive BorrowState where
  | free : BorrowState
  | shared (k : Nat) : BorrowState
  | exclusive : BorrowState
deriving DecidableEq

/-- One artifact cell: content plus borrow state. -/
structure Cell where
  mir : Mir
  state : BorrowState
deriving DecidableEq

/-- Fatal outcomes: every violation in this layer is a panic/abort. -/
inductive Fatal where
  | emptyPassSet (s : Nat) : Fatal
  | noSuchPassSet (s : Nat) : Fatal
  | noSuchPass (s n : Nat) : Fatal
  | borrowViolation : Fatal
  | nonLocalUnit (d : Nat) : Fatal
  | internal : Fatal
deriving DecidableEq

/-- Result of a pipeline operation: a value, or a fatal abort. -/
inductive Res (A : Type) where
  | ok (val : A) : Res A
  | fatal (err : Fatal) : Res A
deriving DecidableEq

/-- Modelled from the spec: `RefCell::borrow` acquisition
(spec section 4.4): free or shared admits one more reader, exclusive is a
fatal borrow violation. -/
def acquireShared (c : Cell) : Res Cell :=
  match c.state with
  | BorrowState.free => Res.ok { c with state := BorrowState.shared 0 }
  | BorrowState.shared k => Res.ok { c with state := BorrowState.shared (k + 1) }
  | BorrowState.exclusive => Res.fatal Fatal.borrowViolation

/-- Modelled from the spec: dropping a `Ref` guard (spec section 4.4). -/
def releaseShared (c : Cell) : Cell :=
  match c.state with
  | BorrowState.shared 0 => { c with state := BorrowState.free }
  | BorrowState.shared (k + 1) => { c with state := BorrowState.shared k }
  | _ => c

/-- Modelled from the spec: `RefCell::borrow_mut` acquisition
(spec section 4.4): only a free cell admits the single writer. -/
def acquireExclusive (c : Cell) : Res Cell :=
  match c.state with
  | BorrowState.free => Res.ok { c with state := BorrowState.exclusive }
  | _ => Res.fatal Fatal.borrowViolation

/-- Modelled from the spec: dropping a `RefMut` guard (spec section 4.4). -/
def releaseExclusive (c : Cell) : Cell :=
  match c.state with
  | BorrowState.exclusive => { c with state := BorrowState.free }
  | _ => c

/-- One notification delivered to a hook: which hook, the context identity
`(pass_set, pass_num, def_id)`, and the artifact view (`none` before the
pass runs, `some content` after). -/
structure HookEvent where
  hook : Nat
  pass_set : Nat
  pass_num : Nat
  def_id : Nat
  view : Option Mir
deriving DecidableEq

/-- Pipeline state: the cell store (cell ids are list positions), the memo
table of the `mir_pass` query, the memo table of the external `mir_build`
provider, the chronological hook log, and the chronological log of actual
builder invocations. -/
structure PState where
  cells : List Cell
  passCache : List ((Nat × Nat × Nat) × Nat)
  buildCache : List (Nat × Nat)
  hookLog : List HookEvent
  buildLog : List Nat
deriving DecidableEq

/-- The empty initial state of a compilation session. -/
def st0 : PState := ⟨[], [], [], [], []⟩

/-- Behaviours a registered pass can have.  Passes are opaque external
collaborators; these four cover the shapes the contract admits: produce a
fresh artifact, read the previous artifact through a scoped shared borrow,
steal the previous artifact (exclusive borrow, in-place mutation,
republish the same cell), or steal it and leak the exclusive borrow. -/
inductive PassKind where
  | fresh (content : Mir) : PassKind
  | readPrev (f : Mir → Mir) : PassKind
  | stealPrev (f : Mir → Mir) : PassKind
  | stealLeak : PassKind

/-- Static configuration: the registered pass-sets, the registered hooks
(in registration order), the external builder's output per unit, and the
HIR-map data backing `source()` (local node lookup and the site metadata
derived from a node). -/
structure Config where
  passes : List (List PassKind)
  hooks : List Nat
  builderMir : Nat → Mir
  localNode : Nat → Option Nat
  sourceFromNode : Nat → Nat

/-- The four resolvers of the pipeline, as one call type:
`pass` is the `mir_pass` query, `passSet` is `mir_pass_set`, `stealPrev`
is `MirCtxtImpl::steal_previous_mir`, `build` is the external `mir_build`
provider. -/
inductive Call where
  | pass (s n d : Nat) : Call
  | passSet (s d : Nat) : Call
  | stealPrev (s n d : Nat) : Call
  | build (d : Nat) : Call

/-- Memo-table lookup for the `mir_pass` query keys. -/
def lookupKey (k : Nat × Nat × Nat) : List ((Nat × Nat × Nat) × Nat) → Option Nat
  | [] => none
  | (k', v) :: rest => if k = k' then some v else lookupKey k rest

/-- Memo-table lookup for the `mir_build` provider. -/
def lookupUnit (d : Nat) : List (Nat × Nat) → Option Nat
  | [] => none
  | (d', v) :: rest => if d = d' then some v else lookupUnit d rest

/-- Number of passes registered strictly before pass-set `s`: the absolute
pipeline position of `(s, 0)`. -/
def setsBefore (cfg : Config) (s : Nat) : Nat :=
  ((cfg.passes.take s).map List.length).sum

/-- Absolute pipeline position of the stage a hook event belongs to. -/
def evPos (cfg : Config) (e : HookEvent) : Nat :=
  setsBefore cfg e.pass_set + e.pass_num

/-- Fuel measure of a call: strictly decreases along every recursive call
the interpreter performs, so `callMeasure cfg c + 1` fuel always
suffices. -/
def callMeasure (cfg : Config) : Call → Nat
  | Call.pass s n _ => 3 * (setsBefore cfg s + n) + 2
  | Call.passSet s _ => 3 * setsBefore cfg (s + 1)
  | Call.stealPrev s n _ => 3 * (setsBefore cfg s + n) + 1
  | Call.build _ => 0

/-- The `for hook in passes.hooks() { hook.on_mir_pass(ctxt, None) }` loop
that runs before the pass: each hook is notified, in registration order,
with no artifact view. -/
def hooksBefore (hooks : List Nat) (s n d : Nat) (st : PState) : PState :=
  { st with hookLog := st.hookLog ++ hooks.map (fun h => (⟨h, s, n, d, none⟩ : HookEvent)) }

/-- The `for hook in passes.hooks() { hook.on_mir_pass(ctxt, Some(mir.borrow())) }`
loop that runs after the pass: for each hook in registration order a shared
borrow of the produced cell is acquired for the duration of the call (fatal
if the cell is exclusively borrowed) and released when the call returns. -/
def hooksAfter (s n d cid : Nat) : List Nat → PState → Res PState
  | [], st => Res.ok st
  | h :: hs, st =>
    match st.cells[cid]? with
    | none => Res.fatal Fatal.internal
    | some c =>
      match acquireShared c with
      | Res.fatal e => Res.fatal e
      | Res.ok c' =>
        let st1 := { st with cells := st.cells.set cid c' }
        let st2 := { st1 with hookLog := st1.hookLog ++ [(⟨h, s, n, d, some c'.mir⟩ : HookEvent)] }
        let st3 := { st2 with cells := st2.cells.set cid (releaseShared c') }
        hooksAfter s n d cid hs st3

/-- Tail of the `mir_pass` provider: fire the after-hooks on the produced
cell, then let the query system record the result under the key. -/
def finishPass (hooks : List Nat) (s n d cid : Nat) (st : PState) : Res (Nat × PState) :=
  match hooksAfter s n d cid hooks st with
  | Res.fatal e => Res.fatal e
  | Res.ok st' => Res.ok (cid, { st' with passCache := ((s, n, d), cid) :: st'.passCache })

/-- Execution of one pass body given `prev`, the context's
previous-stage resolver (`steal_previous_mir`); `prev` is only invoked by
the behaviours that actually request the previous artifact. -/
def execKind (prev : PState → Res (Nat × PState)) : PassKind → PState → Res (Nat × PState)
  | PassKind.fresh content, st =>
    Res.ok (st.cells.length, { st with cells := st.cells ++ [⟨content, BorrowState.free⟩] })
  | PassKind.readPrev f, st =>
    match prev st with
    | Res.fatal e => Res.fatal e
    | Res.ok (pc, st2) =>
      match st2.cells[pc]? with
      | none => Res.fatal Fatal.internal
      | some c =>
        match acquireShared c with
        | Res.fatal e => Res.fatal e
        | Res.ok c' =>
          let st3 := { st2 with cells := st2.cells.set pc c' }
          let st4 := { st3 with cells := st3.cells.set pc (releaseShared c') }
          Res.ok (st4.cells.length, { st4 with cells := st4.cells ++ [⟨f c'.mir, BorrowState.free⟩] })
  | PassKind.stealPrev f, st =>
    match prev st with
    | Res.fatal e => Res.fatal e
    | Res.ok (pc, st2) =>
      match st2.cells[pc]? with
      | none => Res.fatal Fatal.internal
      | some c =>
        match acquireExclusive c with
        | Res.fatal e => Res.fatal e
        | Res.ok c' =>
          let st3 := { st2 with cells := st2.cells.set pc { c' with mir := f c'.mir } }
          let st4 := { st3 with cells := st3.cells.set pc (releaseExclusive { c' with mir := f c'.mir }) }
          Res.ok (pc, st4)
  | PassKind.stealLeak, st =>
    match prev st with
    | Res.fatal e => Res.fatal e
    | Res.ok (pc, st2) =>
      match st2.cells[pc]? with
      | none => Res.fatal Fatal.internal
      | some c =>
        match acquireExclusive c with
        | Res.fatal e => Res.fatal e
        | Res.ok c' => Res.ok (pc, { st2 with cells := st2.cells.set pc c' })

/-- Fueled interpreter for the four resolvers.

* `build`: the external `mir_build` provider; modelled from the spec
  (section 6): produces the initial artifact for the unit, memoized by the
  host query system, each actual invocation logged in `buildLog`.
* `stealPrev`: direct translation of `MirCtxtImpl::steal_previous_mir`.
* `passSet`: direct translation of `mir_pass_set` (the
  `assert!(len > 0)` is the `emptyPassSet` abort).
* `pass`: the `mir_pass` query: memo lookup is modelled from the spec
  (section 4.1, at-most-once computation per key); on a miss the provider
  body of `mir_pass` runs: before-hooks, the pass itself, after-hooks,
  then the result is recorded. -/
def runF (cfg : Config) : Nat → Call → PState → Res (Nat × PState)
  | 0, _, _ => Res.fatal Fatal.internal
  | _ + 1, Call.build d, st =>
    match lookupUnit d st.buildCache with
    | some cid => Res.ok (cid, st)
    | none =>
      Res.ok (st.cells.length,
        { st with cells := st.cells ++ [⟨cfg.builderMir d, BorrowState.free⟩],
                  buildCache := (d, st.cells.length) :: st.buildCache,
                  buildLog := st.buildLog ++ [d] })
  | fuel + 1, Call.stealPrev s n d, st =>
    if n > 0 then runF cfg fuel (Call.pass s (n - 1) d) st
    else if s > 0 then runF cfg fuel (Call.passSet (s - 1) d) st
    else runF cfg fuel (Call.build d) st
  | fuel + 1, Call.passSet s d, st =>
    match cfg.passes[s]? with
    | none => Res.fatal (Fatal.noSuchPassSet s)
    | some set =>
      if set.length > 0 then runF cfg fuel (Call.pass s (set.length - 1) d) st
      else Res.fatal (Fatal.emptyPassSet s)
  | fuel + 1, Call.pass s n d, st =>
    match lookupKey (s, n, d) st.passCache with
    | some cid => Res.ok (cid, st)
    | none =>
      match cfg.passes[s]? with
      | none => Res.fatal (Fatal.noSuchPass s n)
      | some set =>
        match set[n]? with
        | none => Res.fatal (Fatal.noSuchPass s n)
        | some pk =>
          match execKind (runF cfg fuel (Call.stealPrev s n d)) pk
              (hooksBefore cfg.hooks s n d st) with
          | Res.fatal e => Res.fatal e
          | Res.ok (cid, st2) => finishPass cfg.hooks s n d cid st2

/-- The interpreter at saturated fuel: `callMeasure` strictly decreases
along every recursive call, so this fuel is always enough. -/
def run (cfg : Config) (c : Call) (st : PState) : Res (Nat × PState) :=
  runF cfg (callMeasure cfg c + 1) c st

/-- The `mir_pass` query (provider `mir_pass` plus host memoization). -/
def mir_pass (cfg : Config) (s n d : Nat) (st : PState) : Res (Nat × PState) :=
  run cfg (Call.pass s n d) st

/-- The `mir_pass_set` provider. -/
def mir_pass_set (cfg : Config) (s d : Nat) (st : PState) : Res (Nat × PState) :=
  run cfg (Call.passSet s d) st

/-- The context accessor `MirCtxtImpl::steal_previous_mir`. -/
def steal_previous_mir (cfg : Config) (s n d : Nat) (st : PState) : Res (Nat × PState) :=
  run cfg (Call.stealPrev s n d) st

/-- The external `mir_build` query. -/
def mir_build (cfg : Config) (d : Nat) (st : PState) : Res (Nat × PState) :=
  run cfg (Call.build d) st

/-- Modelled from the spec: the `MIR_OPTIMIZED` pass-set constant denotes
the last configured pass-set (the constant lives in
`rustc::mir::transform`, outside the file under verification). -/
def MIR_OPTIMIZED (cfg : Config) : Nat := cfg.passes.length - 1

/-- The `optimized_mir` provider: resolve the last pass-set, then perform
the finalization check `mem::drop(mir.borrow())`: a shared borrow is
acquired (fatal if the cell is exclusively borrowed) and immediately
released, and the same cell is returned. -/
def optimized_mir (cfg : Config) (d : Nat) (st : PState) : Res (Nat × PState) :=
  match mir_pass_set cfg (MIR_OPTIMIZED cfg) d st with
  | Res.fatal e => Res.fatal e
  | Res.ok (cid, st') =>
    match st'.cells[cid]? with
    | none => Res.fatal Fatal.internal
    | some c =>
      match acquireShared c with
      | Res.fatal e => Res.fatal e
      | Res.ok c' =>
        Res.ok (cid, { st' with cells := (st'.cells.set cid c').set cid (releaseShared c') })

/-- Acquisition of the `Ref` guard on a cell: the `.borrow()` in
`read_previous_mir`; the guard stays live for the caller, so the shared
count stays incremented in the returned state. -/
def borrowRef (cid : Nat) (st : PState) : Res (Nat × PState) :=
  match st.cells[cid]? with
  | none => Res.fatal Fatal.internal
  | some c =>
    match acquireShared c with
    | Res.fatal e => Res.fatal e
    | Res.ok c' => Res.ok (cid, { st with cells := st.cells.set cid c' })

/-- The context accessor `MirCtxtImpl::read_previous_mir`: literally
`self.steal_previous_mir().borrow()`. -/
def read_previous_mir (cfg : Config) (s n d : Nat) (st : PState) : Res (Nat × PState) :=
  match steal_previous_mir cfg s n d st with
  | Res.fatal e => Res.fatal e
  | Res.ok (cid, st') => borrowRef cid st'

/-- Scenario configuration from the spec, section 8: pass-sets
`[[A, B], [C]]` where every pass steals its predecessor and bumps the
content, one registered hook, builder content 10 for every unit. -/
def cfgChain : Config :=
  ⟨[[PassKind.stealPrev (· + 1), PassKind.stealPrev (· + 1)], [PassKind.stealPrev (· + 1)]],
   [0], fun _ => 10, fun _ => none, fun n => n⟩

/-- Final state of the chain scenario: one cell, republished by every
stage, content 13, free; all three keys memoized onto the same cell; the
builder invoked exactly once; six hook notifications in nesting order. -/
def stChainFinal : PState :=
  ⟨[⟨13, BorrowState.free⟩],
   [((1, 0, 0), 0), ((0, 1, 0), 0), ((0, 0, 0), 0)],
   [(0, 0)],
   [⟨0, 1, 0, 0, none⟩, ⟨0, 0, 1, 0, none⟩, ⟨0, 0, 0, 0, none⟩,
    ⟨0, 0, 0, 0, some 11⟩, ⟨0, 0, 1, 0, some 12⟩, ⟨0, 1, 0, 0, some 13⟩],
   [0]⟩

/-- Two pass-sets of one artifact-producing pass each, no hooks:
exercises `steal_previous_mir` at pass-set 1, index 0. -/
def cfgFresh : Config :=
  ⟨[[PassKind.fresh 5], [PassKind.fresh 6]], [], fun _ => 10, fun _ => none, fun n => n⟩

/-- State after `steal_previous_mir` at `(1, 0, 0)` under `cfgFresh`: the
previous stage's cell exists, is free (no borrow was acquired by the
steal accessor itself), and is memoized under key `(0, 0, 0)`. -/
def stFreshSteal : PState :=
  ⟨[⟨5, BorrowState.free⟩], [((0, 0, 0), 0)], [], [], []⟩

/-- One single-pass set and two registered hooks: exercises the hook
notification discipline of one `mir_pass` provider execution. -/
def cfgHooks : Config :=
  ⟨[[PassKind.fresh 5]], [0, 1], fun _ => 10, fun _ => none, fun n => n⟩

/-- State after `mir_pass (0, 0, 0)` under `cfgHooks`: both hooks
notified before (no view) and after (view of content 5), in registration
order each time. -/
def stHooks : PState :=
  ⟨[⟨5, BorrowState.free⟩], [((0, 0, 0), 0)],
   [],
   [⟨0, 0, 0, 0, none⟩, ⟨1, 0, 0, 0, none⟩, ⟨0, 0, 0, 0, some 5⟩, ⟨1, 0, 0, 0, some 5⟩],
   []⟩

/-- A configuration whose only pass-set is registered empty. -/
def cfgEmpty : Config :=
  ⟨[[]], [0], fun _ => 10, fun _ => none, fun n => n⟩

/-- A configuration in which unit 1 is locally defined with node 7 and
unit 0 has no local definition. -/
def cfgLocal : Config :=
  ⟨[[PassKind.fresh 5]], [], fun _ => 10,
   fun d => if d = 1 then some 7 else none, fun n => n + 100⟩

/-- The context accessor `MirCtxtImpl::source`:
`tcx.hir.as_local_node_id(def_id).expect(..)` then
`MirSource::from_node(tcx, id)`.  The HIR map is outside the file under
verification; its two operations are the `localNode` and `sourceFromNode`
fields of the configuration. -/
def source (cfg : Config) (d : Nat) : Res Nat :=
  match cfg.localNode d with
  | some nid => Res.ok (cfg.sourceFromNode nid)
  | none => Res.fatal (Fatal.nonLocalUnit d)

/-! Helper lemmas about lists, cells and the interpreter. -/

theorem list_set_self {A : Type} : ∀ (l : List A) (i : Nat) (a : A),
    l[i]? = some a → l.set i a = l := by
  intro l
  induction l with
  | nil => intro i a h; simp at h
  | cons x xs ih =>
    intro i a h
    cases i with
    | zero =>
      simp at h
      simp [List.set, h]
    | succ j =>
      simp at h
      simp [List.set, ih j a h]

theorem releaseShared_acquireShared : ∀ {c c' : Cell},
    acquireShared c = Res.ok c' → releaseShared c' = c := by
  intro ⟨m, s⟩ c' h
  cases s <;> simp [acquireShared] at h <;> subst h <;> rfl

theorem acquireShared_exclusive {c : Cell} (h : c.state = BorrowState.exclusive) :
    acquireShared c = Res.fatal Fatal.borrowViolation := by
  unfold acquireShared
  rw [h]

theorem acquireShared_not_exclusive {c : Cell} (h : c.state ≠ BorrowState.exclusive) :
    ∃ k, acquireShared c = Res.ok { c with state := BorrowState.shared k } := by
  cases hs : c.state with
  | free => exact ⟨0, by unfold acquireShared; rw [hs]⟩
  | shared k => exact ⟨k + 1, by unfold acquireShared; rw [hs]⟩
  | exclusive => exact absurd hs h

theorem setsBefore_succ {cfg : Config} {s : Nat} {set : List PassKind}
    (h : cfg.passes[s]? = some set) :
    setsBefore cfg (s + 1) = setsBefore cfg s + set.length := by
  unfold setsBefore
  rw [List.take_succ, h]
  simp

theorem runF_congr (cfg : Config) : ∀ f f' c st,
    callMeasure cfg c < f → callMeasure cfg c < f' →
    runF cfg f c st = runF cfg f' c st := by
  intro f
  induction f with
  | zero => intro f' c st h _; exact absurd h (Nat.not_lt_zero _)
  | succ f ih =>
    intro f' c st h h'
    match f', h' with
    | f' + 1, h' =>
      cases c with
      | build d => rfl
      | stealPrev s n d =>
        simp only [runF]
        simp only [callMeasure] at h h'
        by_cases hn : n > 0
        · simp only [if_pos hn]
          exact ih f' (Call.pass s (n - 1) d) st
            (by simp only [callMeasure]; omega) (by simp only [callMeasure]; omega)
        · simp only [if_neg hn]
          by_cases hs : s > 0
          · simp only [if_pos hs]
            have hss : s - 1 + 1 = s := by omega
            refine ih f' (Call.passSet (s - 1) d) st ?_ ?_ <;>
              simp only [callMeasure, hss] <;> omega
          · simp only [if_neg hs]
            exact ih f' (Call.build d) st
              (by simp only [callMeasure]; omega) (by simp only [callMeasure]; omega)
      | passSet s d =>
        simp only [runF]
        simp only [callMeasure] at h h'
        cases hps : cfg.passes[s]? with
        | none => rfl
        | some set =>
          have hB := setsBefore_succ hps
          by_cases hlen : set.length > 0
          · simp only [if_pos hlen]
            exact ih f' (Call.pass s (set.length - 1) d) st
              (by simp only [callMeasure]; omega) (by simp only [callMeasure]; omega)
          · simp only [if_neg hlen]
      | pass s n d =>
        simp only [runF]
        simp only [callMeasure] at h h'
        cases hck : lookupKey (s, n, d) st.passCache with
        | some cid => rfl
        | none =>
          dsimp only
          cases hps : cfg.passes[s]? with
          | none => rfl
          | some set =>
            dsimp only
            cases hpk : set[n]? with
            | none => rfl
            | some pk =>
              dsimp only
              have hfn : runF cfg f (Call.stealPrev s n d) = runF cfg f' (Call.stealPrev s n d) :=
                funext fun st' => ih f' (Call.stealPrev s n d) st'
                  (by simp only [callMeasure]; omega) (by simp only [callMeasure]; omega)
              rw [hfn]

/-- The provider body of `mir_pass` (what runs on a cache miss), phrased
with the saturated-fuel resolvers. -/
def mir_pass_provider (cfg : Config) (s n d : Nat) (st : PState) : Res (Nat × PState) :=
  match cfg.passes[s]? with
  | none => Res.fatal (Fatal.noSuchPass s n)
  | some set =>
    match set[n]? with
    | none => Res.fatal (Fatal.noSuchPass s n)
    | some pk =>
      match execKind (steal_previous_mir cfg s n d) pk (hooksBefore cfg.hooks s n d st) with
      | Res.fatal e => Res.fatal e
      | Res.ok (cid, st2) => finishPass cfg.hooks s n d cid st2

theorem run_build_eq (cfg : Config) (d : Nat) (st : PState) :
    mir_build cfg d st =
      match lookupUnit d st.buildCache with
      | some cid => Res.ok (cid, st)
      | none =>
        Res.ok (st.cells.length,
          { st with cells := st.cells ++ [⟨cfg.builderMir d, BorrowState.free⟩],
                    buildCache := (d, st.cells.length) :: st.buildCache,
                    buildLog := st.buildLog ++ [d] }) := rfl

theorem run_steal_eq (cfg : Config) (s n d : Nat) (st : PState) :
    steal_previous_mir cfg s n d st =
      if n > 0 then mir_pass cfg s (n - 1) d st
      else if s > 0 then mir_pass_set cfg (s - 1) d st
      else mir_build cfg d st := by
  have hstep : steal_previous_mir cfg s n d st =
      if n > 0 then runF cfg (callMeasure cfg (Call.stealPrev s n d)) (Call.pass s (n - 1) d) st
      else if s > 0 then runF cfg (callMeasure cfg (Call.stealPrev s n d)) (Call.passSet (s - 1) d) st
      else runF cfg (callMeasure cfg (Call.stealPrev s n d)) (Call.build d) st := rfl
  rw [hstep]
  by_cases hn : n > 0
  · simp only [if_pos hn]
    exact runF_congr cfg _ _ _ st
      (by simp only [callMeasure]; omega) (Nat.lt_succ_self _)
  · simp only [if_neg hn]
    by_cases hs : s > 0
    · simp only [if_pos hs]
      have hss : s - 1 + 1 = s := by omega
      exact runF_congr cfg _ _ _ st
        (by simp only [callMeasure, hss]; omega) (Nat.lt_succ_self _)
    · simp only [if_neg hs]
      exact runF_congr cfg _ _ _ st
        (by simp only [callMeasure]; omega) (Nat.lt_succ_self _)

theorem run_passSet_eq (cfg : Config) (s d : Nat) (st : PState) :
    mir_pass_set cfg s d st =
      match cfg.passes[s]? with
      | none => Res.fatal (Fatal.noSuchPassSet s)
      | some set =>
        if set.length > 0 then mir_pass cfg s (set.length - 1) d st
        else Res.fatal (Fatal.emptyPassSet s) := by
  have hstep : mir_pass_set cfg s d st =
      match cfg.passes[s]? with
      | none => Res.fatal (Fatal.noSuchPassSet s)
      | some set =>
        if set.length > 0 then
          runF cfg (callMeasure cfg (Call.passSet s d)) (Call.pass s (set.length - 1) d) st
        else Res.fatal (Fatal.emptyPassSet s) := rfl
  rw [hstep]
  cases hps : cfg.passes[s]? with
  | none => rfl
  | some set =>
    dsimp only
    by_cases hlen : set.length > 0
    · simp only [if_pos hlen]
      have hB := setsBefore_succ hps
      exact runF_congr cfg _ _ _ st
        (by simp only [callMeasure]; omega) (Nat.lt_succ_self _)
    · simp only [if_neg hlen]

theorem run_pass_eq (cfg : Config) (s n d : Nat) (st : PState) :
    mir_pass cfg s n d st =
      match lookupKey (s, n, d) st.passCache with
      | some cid => Res.ok (cid, st)
      | none => mir_pass_provider cfg s n d st := by
  have hstep : mir_pass cfg s n d st =
      match lookupKey (s, n, d) st.passCache with
      | some cid => Res.ok (cid, st)
      | none =>
        match cfg.passes[s]? with
        | none => Res.fatal (Fatal.noSuchPass s n)
        | some set =>
          match set[n]? with
          | none => Res.fatal (Fatal.noSuchPass s n)
          | some pk =>
            match execKind (runF cfg (callMeasure cfg (Call.pass s n d)) (Call.stealPrev s n d)) pk
                (hooksBefore cfg.hooks s n d st) with
            | Res.fatal e => Res.fatal e
            | Res.ok (cid, st2) => finishPass cfg.hooks s n d cid st2 := rfl
  rw [hstep]
  cases hck : lookupKey (s, n, d) st.passCache with
  | some cid => rfl
  | none =>
    dsimp only
    unfold mir_pass_provider
    have hfn : runF cfg (callMeasure cfg (Call.pass s n d)) (Call.stealPrev s n d) =
        steal_previous_mir cfg s n d :=
      funext fun st' => runF_congr cfg _ _ _ st'
        (by simp only [callMeasure]; omega) (Nat.lt_succ_self _)
    rw [hfn]

theorem mir_pass_lookup {cfg : Config} {s n d : Nat} {st : PState} {cid : Nat} {st' : PState}
    (h : mir_pass cfg s n d st = Res.ok (cid, st')) :
    lookupKey (s, n, d) st'.passCache = some cid := by
  rw [run_pass_eq] at h
  cases hck : lookupKey (s, n, d) st.passCache with
  | some c0 =>
    rw [hck] at h
    cases h
    exact hck
  | none =>
    rw [hck] at h
    dsimp only at h
    unfold mir_pass_provider at h
    cases hps : cfg.passes[s]? with
    | none => rw [hps] at h; cases h
    | some set =>
      rw [hps] at h
      dsimp only at h
      cases hpk : set[n]? with
      | none => rw [hpk] at h; cases h
      | some pk =>
        rw [hpk] at h
        dsimp only at h
        cases hex : execKind (steal_previous_mir cfg s n d) pk (hooksBefore cfg.hooks s n d st) with
        | fatal e => rw [hex] at h; cases h
        | ok p =>
          rw [hex] at h
          obtain ⟨cid2, st2⟩ := p
          dsimp only [finishPass] at h
          cases hha : hooksAfter s n d cid2 cfg.hooks st2 with
          | fatal e => rw [hha] at h; cases h
          | ok st3 =>
            rw [hha] at h
            cases h
            simp [lookupKey]

theorem acquireShared_mir : ∀ {c c' : Cell}, acquireShared c = Res.ok c' → c'.mir = c.mir := by
  intro ⟨m, s⟩ c' h
  cases s <;> simp [acquireShared] at h <;> subst h <;> rfl

theorem acquireShared_ok_ne : ∀ {c c' : Cell},
    acquireShared c = Res.ok c' → c.state ≠ BorrowState.exclusive := by
  intro ⟨m, s⟩ c' h hs
  cases s <;> simp [acquireShared] at h <;> cases hs

theorem hooksAfter_fields {s n d cid : Nat} : ∀ (hooks : List Nat) (st st'' : PState),
    hooksAfter s n d cid hooks st = Res.ok st'' →
    st''.cells = st.cells ∧ st''.passCache = st.passCache ∧
    st''.buildCache = st.buildCache ∧ st''.buildLog = st.buildLog ∧
    ∃ L, st''.hookLog = st.hookLog ++ L ∧
      ∀ e ∈ L, e.pass_set = s ∧ e.pass_num = n ∧ e.def_id = d ∧ e.view.isSome := by
  intro hooks
  induction hooks with
  | nil =>
    intro st st'' h
    cases h
    exact ⟨rfl, rfl, rfl, rfl, [], by simp, by simp⟩
  | cons h0 hs ih =>
    intro st st'' h
    unfold hooksAfter at h
    cases hc : st.cells[cid]? with
    | none => rw [hc] at h; cases h
    | some c =>
      rw [hc] at h
      dsimp only at h
      cases hacq : acquireShared c with
      | fatal e => rw [hacq] at h; cases h
      | ok c' =>
        rw [hacq] at h
        dsimp only at h
        obtain ⟨e1, e2, e3, e4, L, e5, e6⟩ := ih _ _ h
        have hcells : (st.cells.set cid c').set cid (releaseShared c') = st.cells := by
          rw [List.set_set, releaseShared_acquireShared hacq, list_set_self _ _ _ hc]
        refine ⟨by rw [e1]; exact hcells, e2, e3, e4,
          ⟨h0, s, n, d, some c'.mir⟩ :: L, ?_, ?_⟩
        · rw [e5]; simp
        · intro e he
          rcases List.mem_cons.mp he with rfl | he
          · exact ⟨rfl, rfl, rfl, rfl⟩
          · exact e6 e he

theorem hooksAfter_content {s n d cid : Nat} : ∀ (hooks : List Nat) (st st'' : PState) (c : Cell),
    hooksAfter s n d cid hooks st = Res.ok st'' →
    st.cells[cid]? = some c →
    st''.hookLog = st.hookLog ++ hooks.map (fun h => (⟨h, s, n, d, some c.mir⟩ : HookEvent)) := by
  intro hooks
  induction hooks with
  | nil =>
    intro st st'' c h _
    cases h
    simp
  | cons h0 hs ih =>
    intro st st'' c h hc
    unfold hooksAfter at h
    rw [hc] at h
    dsimp only at h
    cases hacq : acquireShared c with
    | fatal e => rw [hacq] at h; cases h
    | ok c' =>
      rw [hacq] at h
      dsimp only at h
      have hcells : (st.cells.set cid c').set cid (releaseShared c') = st.cells := by
        rw [List.set_set, releaseShared_acquireShared hacq, list_set_self _ _ _ hc]
      have hmir : c'.mir = c.mir := acquireShared_mir hacq
      have := ih _ _ c h (by rw [hcells]; exact hc)
      rw [this]
      simp [hmir]

theorem optimized_ok {cfg : Config} {d : Nat} {st : PState} {cid : Nat} {st' : PState}
    (h : mir_pass_set cfg (MIR_OPTIMIZED cfg) d st = Res.ok (cid, st'))
    {c : Cell} (hc : st'.cells[cid]? = some c) (hne : c.state ≠ BorrowState.exclusive) :
    optimized_mir cfg d st = Res.ok (cid, st') := by
  unfold optimized_mir
  rw [h]
  dsimp only
  rw [hc]
  dsimp only
  obtain ⟨k, hk⟩ := acquireShared_not_exclusive hne
  rw [hk]
  dsimp only
  rw [List.set_set, releaseShared_acquireShared hk, list_set_self _ _ _ hc]

theorem optimized_fatal {cfg : Config} {d : Nat} {st : PState} {cid : Nat} {st' : PState}
    (h : mir_pass_set cfg (MIR_OPTIMIZED cfg) d st = Res.ok (cid, st'))
    {c : Cell} (hc : st'.cells[cid]? = some c) (hexc : c.state = BorrowState.exclusive) :
    optimized_mir cfg d st = Res.fatal Fatal.borrowViolation := by
  unfold optimized_mir
  rw [h]
  dsimp only
  rw [hc]
  dsimp only
  rw [acquireShared_exclusive hexc]

theorem optimized_inv {cfg : Config} {d : Nat} {st : PState} {cid : Nat} {st₁ : PState}
    (h : optimized_mir cfg d st = Res.ok (cid, st₁)) :
    mir_pass_set cfg (MIR_OPTIMIZED cfg) d st = Res.ok (cid, st₁) ∧
    ∃ c, st₁.cells[cid]? = some c ∧ c.state ≠ BorrowState.exclusive := by
  unfold optimized_mir at h
  cases hps : mir_pass_set cfg (MIR_OPTIMIZED cfg) d st with
  | fatal e => rw [hps] at h; cases h
  | ok p =>
    rw [hps] at h
    obtain ⟨cid0, st'⟩ := p
    dsimp only at h
    cases hc : st'.cells[cid0]? with
    | none => rw [hc] at h; cases h
    | some c =>
      rw [hc] at h
      dsimp only at h
      cases hacq : acquireShared c with
      | fatal e => rw [hacq] at h; cases h
      | ok c' =>
        rw [hacq] at h
        dsimp only at h
        have hcells : (st'.cells.set cid0 c').set cid0 (releaseShared c') = st'.cells := by
          rw [List.set_set, releaseShared_acquireShared hacq, list_set_self _ _ _ hc]
        rw [hcells] at h
        cases h
        exact ⟨rfl, c, hc, acquireShared_ok_ne hacq⟩

/-- Strict upper bound on the pipeline position of every hook event a call
can append: a call only ever computes stages at or before its own
position. -/
def posBound (cfg : Config) : Call → Nat
  | Call.pass s n _ => setsBefore cfg s + n + 1
  | Call.passSet s _ => setsBefore cfg (s + 1)
  | Call.stealPrev s n _ => setsBefore cfg s + n
  | Call.build _ => 0

theorem execKind_log {prev : PState → Res (Nat × PState)} {P : HookEvent → Prop}
    (hprev : ∀ st q, prev st = Res.ok q → ∃ L, q.2.hookLog = st.hookLog ++ L ∧ ∀ e ∈ L, P e) :
    ∀ (pk : PassKind) (st : PState) (cid : Nat) (st₂ : PState),
    execKind prev pk st = Res.ok (cid, st₂) →
    ∃ L, st₂.hookLog = st.hookLog ++ L ∧ ∀ e ∈ L, P e := by
  intro pk st cid st₂ h
  cases pk with
  | fresh content =>
    cases h
    exact ⟨[], by simp, by simp⟩
  | readPrev f =>
    simp only [execKind] at h
    cases hp : prev st with
    | fatal e => rw [hp] at h; cases h
    | ok p =>
      rw [hp] at h
      obtain ⟨pc, st2⟩ := p
      dsimp only at h
      cases hc : st2.cells[pc]? with
      | none => rw [hc] at h; cases h
      | some c =>
        rw [hc] at h
        dsimp only at h
        cases hacq : acquireShared c with
        | fatal e => rw [hacq] at h; cases h
        | ok c' =>
          rw [hacq] at h
          cases h
          exact hprev st (pc, st2) hp
  | stealPrev f =>
    simp only [execKind] at h
    cases hp : prev st with
    | fatal e => rw [hp] at h; cases h
    | ok p =>
      rw [hp] at h
      obtain ⟨pc, st2⟩ := p
      dsimp only at h
      cases hc : st2.cells[pc]? with
      | none => rw [hc] at h; cases h
      | some c =>
        rw [hc] at h
        dsimp only at h
        cases hacq : acquireExclusive c with
        | fatal e => rw [hacq] at h; cases h
        | ok c' =>
          rw [hacq] at h
          cases h
          exact hprev st (cid, st2) hp
  | stealLeak =>
    simp only [execKind] at h
    cases hp : prev st with
    | fatal e => rw [hp] at h; cases h
    | ok p =>
      rw [hp] at h
      obtain ⟨pc, st2⟩ := p
      dsimp only at h
      cases hc : st2.cells[pc]? with
      | none => rw [hc] at h; cases h
      | some c =>
        rw [hc] at h
        dsimp only at h
        cases hacq : acquireExclusive c with
        | fatal e => rw [hacq] at h; cases h
        | ok c' =>
          rw [hacq] at h
          cases h
          exact hprev st (cid, st2) hp

theorem runF_log (cfg : Config) : ∀ fuel c st cid st',
    runF cfg fuel c st = Res.ok (cid, st') →
    ∃ L, st'.hookLog = st.hookLog ++ L ∧ ∀ e ∈ L, evPos cfg e < posBound cfg c := by
  intro fuel
  induction fuel with
  | zero => intro c st cid st' h; cases h
  | succ fuel ih =>
    intro c st cid st' h
    cases c with
    | build d =>
      unfold runF at h
      cases hb : lookupUnit d st.buildCache with
      | some cid0 => rw [hb] at h; cases h; exact ⟨[], by simp, by simp⟩
      | none => rw [hb] at h; cases h; exact ⟨[], by simp, by simp⟩
    | stealPrev s n d =>
      unfold runF at h
      by_cases hn : n > 0
      · rw [if_pos hn] at h
        obtain ⟨L, h1, h2⟩ := ih _ _ _ _ h
        refine ⟨L, h1, fun e he => ?_⟩
        have := h2 e he
        simp only [posBound] at this ⊢
        omega
      · rw [if_neg hn] at h
        by_cases hs : s > 0
        · rw [if_pos hs] at h
          obtain ⟨L, h1, h2⟩ := ih _ _ _ _ h
          refine ⟨L, h1, fun e he => ?_⟩
          have := h2 e he
          have hss : s - 1 + 1 = s := by omega
          simp only [posBound, hss] at this ⊢
          omega
        · rw [if_neg hs] at h
          obtain ⟨L, h1, h2⟩ := ih _ _ _ _ h
          refine ⟨L, h1, fun e he => ?_⟩
          have := h2 e he
          simp only [posBound] at this ⊢
          omega
    | passSet s d =>
      unfold runF at h
      cases hps : cfg.passes[s]? with
      | none => rw [hps] at h; cases h
      | some set =>
        rw [hps] at h
        dsimp only at h
        by_cases hlen : set.length > 0
        · rw [if_pos hlen] at h
          obtain ⟨L, h1, h2⟩ := ih _ _ _ _ h
          refine ⟨L, h1, fun e he => ?_⟩
          have := h2 e he
          have hB := setsBefore_succ hps
          simp only [posBound] at this ⊢
          omega
        · rw [if_neg hlen] at h
          cases h
    | pass s n d =>
      unfold runF at h
      cases hck : lookupKey (s, n, d) st.passCache with
      | some cid0 => rw [hck] at h; cases h; exact ⟨[], by simp, by simp⟩
      | none =>
        rw [hck] at h
        dsimp only at h
        cases hps : cfg.passes[s]? with
        | none => rw [hps] at h; cases h
        | some set =>
          rw [hps] at h
          dsimp only at h
          cases hpk : set[n]? with
          | none => rw [hpk] at h; cases h
          | some pk =>
            rw [hpk] at h
            dsimp only at h
            cases hex : execKind (runF cfg fuel (Call.stealPrev s n d)) pk
                (hooksBefore cfg.hooks s n d st) with
            | fatal e => rw [hex] at h; cases h
            | ok p =>
              rw [hex] at h
              obtain ⟨cid2, st2⟩ := p
              dsimp only [finishPass] at h
              cases hha : hooksAfter s n d cid2 cfg.hooks st2 with
              | fatal e => rw [hha] at h; cases h
              | ok st3 =>
                rw [hha] at h
                cases h
                have hprev : ∀ st₀ q, runF cfg fuel (Call.stealPrev s n d) st₀ = Res.ok q →
                    ∃ L, q.2.hookLog = st₀.hookLog ++ L ∧
                      ∀ e ∈ L, evPos cfg e < setsBefore cfg s + n := by
                  intro st₀ q hq
                  obtain ⟨L, hL1, hL2⟩ := ih _ _ _ _ hq
                  exact ⟨L, hL1, fun e he => hL2 e he⟩
                obtain ⟨L2, hL2a, hL2b⟩ := execKind_log hprev pk _ cid st2 hex
                obtain ⟨_, _, _, _, L3, hL3a, hL3b⟩ := hooksAfter_fields cfg.hooks st2 st3 hha
                refine ⟨cfg.hooks.map (fun h => (⟨h, s, n, d, none⟩ : HookEvent)) ++ L2 ++ L3,
                  ?_, ?_⟩
                · rw [hL3a, hL2a]
                  simp [hooksBefore, List.append_assoc]
                · intro e he
                  simp only [List.append_assoc, List.mem_append] at he
                  rcases he with he | he | he
                  · obtain ⟨h0, _, rfl⟩ := List.mem_map.mp he
                    simp [evPos, posBound]
                  · have := hL2b e he
                    simp only [posBound] at this ⊢
                    omega
                  · obtain ⟨he1, he2, _, _⟩ := hL3b e he
                    simp [evPos, posBound, he1, he2]

/-- Invariant of the builder memo table: cached keys are exactly the
logged invocations (most recent first) and no unit is built twice. -/
def BuildInv (st : PState) : Prop :=
  st.buildCache.map Prod.fst = st.buildLog.reverse ∧ st.buildLog.Nodup

instance decidableBuildInv (st : PState) : Decidable (BuildInv st) :=
  inferInstanceAs (Decidable (st.buildCache.map Prod.fst = st.buildLog.reverse ∧ st.buildLog.Nodup))

theorem lookupUnit_none : ∀ {d : Nat} {l : List (Nat × Nat)},
    lookupUnit d l = none → d ∉ l.map Prod.fst := by
  intro d l
  induction l with
  | nil => intro _; simp
  | cons p rest ih =>
    intro h
    obtain ⟨d', v⟩ := p
    unfold lookupUnit at h
    by_cases hd : d = d'
    · rw [if_pos hd] at h; cases h
    · rw [if_neg hd] at h
      simp only [List.map_cons, List.mem_cons]
      push_neg
      exact ⟨hd, ih h⟩

theorem execKind_buildInv {prev : PState → Res (Nat × PState)}
    (hprev : ∀ st q, prev st = Res.ok q → BuildInv st → BuildInv q.2) :
    ∀ (pk : PassKind) (st : PState) (cid : Nat) (st₂ : PState),
    execKind prev pk st = Res.ok (cid, st₂) → BuildInv st → BuildInv st₂ := by
  intro pk st cid st₂ h hb
  cases pk with
  | fresh content =>
    cases h
    exact hb
  | readPrev f =>
    simp only [execKind] at h
    cases hp : prev st with
    | fatal e => rw [hp] at h; cases h
    | ok p =>
      rw [hp] at h
      obtain ⟨pc, st2⟩ := p
      dsimp only at h
      cases hc : st2.cells[pc]? with
      | none => rw [hc] at h; cases h
      | some c =>
        rw [hc] at h
        dsimp only at h
        cases hacq : acquireShared c with
        | fatal e => rw [hacq] at h; cases h
        | ok c' =>
          rw [hacq] at h
          cases h
          exact hprev st (pc, st2) hp hb
  | stealPrev f =>
    simp only [execKind] at h
    cases hp : prev st with
    | fatal e => rw [hp] at h; cases h
    | ok p =>
      rw [hp] at h
      obtain ⟨pc, st2⟩ := p
      dsimp only at h
      cases hc : st2.cells[pc]? with
      | none => rw [hc] at h; cases h
      | some c =>
        rw [hc] at h
        dsimp only at h
        cases hacq : acquireExclusive c with
        | fatal e => rw [hacq] at h; cases h
        | ok c' =>
          rw [hacq] at h
          cases h
          exact hprev st (cid, st2) hp hb
  | stealLeak =>
    simp only [execKind] at h
    cases hp : prev st with
    | fatal e => rw [hp] at h; cases h
    | ok p =>
      rw [hp] at h
      obtain ⟨pc, st2⟩ := p
      dsimp only at h
      cases hc : st2.cells[pc]? with
      | none => rw [hc] at h; cases h
      | some c =>
        rw [hc] at h
        dsimp only at h
        cases hacq : acquireExclusive c with
        | fatal e => rw [hacq] at h; cases h
        | ok c' =>
          rw [hacq] at h
          cases h
          exact hprev st (cid, st2) hp hb

theorem runF_buildInv (cfg : Config) : ∀ fuel c st cid st',
    runF cfg fuel c st = Res.ok (cid, st') → BuildInv st → BuildInv st' := by
  intro fuel
  induction fuel with
  | zero => intro c st cid st' h; cases h
  | succ fuel ih =>
    intro c st cid st' h hb
    cases c with
    | build d =>
      unfold runF at h
      cases hbc : lookupUnit d st.buildCache with
      | some cid0 =>
        rw [hbc] at h
        cases h
        exact hb
      | none =>
        rw [hbc] at h
        cases h
        have hd : d ∉ st.buildLog := by
          have := lookupUnit_none hbc
          rw [hb.1] at this
          exact fun hmem => this (List.mem_reverse.mpr hmem)
        constructor
        · simp only [List.map_cons, hb.1, List.reverse_append]
          rfl
        · simp only [List.nodup_append]
          exact ⟨hb.2, List.nodup_singleton d, fun a ha had => hd ((List.mem_singleton.mp had) ▸ ha)⟩
    | stealPrev s n d =>
      unfold runF at h
      by_cases hn : n > 0
      · rw [if_pos hn] at h; exact ih _ _ _ _ h hb
      · rw [if_neg hn] at h
        by_cases hs : s > 0
        · rw [if_pos hs] at h; exact ih _ _ _ _ h hb
        · rw [if_neg hs] at h; exact ih _ _ _ _ h hb
    | passSet s d =>
      unfold runF at h
      cases hps : cfg.passes[s]? with
      | none => rw [hps] at h; cases h
      | some set =>
        rw [hps] at h
        dsimp only at h
        by_cases hlen : set.length > 0
        · rw [if_pos hlen] at h; exact ih _ _ _ _ h hb
        · rw [if_neg hlen] at h; cases h
    | pass s n d =>
      unfold runF at h
      cases hck : lookupKey (s, n, d) st.passCache with
      | some cid0 =>
        rw [hck] at h
        cases h
        exact hb
      | none =>
        rw [hck] at h
        dsimp only at h
        cases hps : cfg.passes[s]? with
        | none => rw [hps] at h; cases h
        | some set =>
          rw [hps] at h
          dsimp only at h
          cases hpk : set[n]? with
          | none => rw [hpk] at h; cases h
          | some pk =>
            rw [hpk] at h
            dsimp only at h
            cases hex : execKind (runF cfg fuel (Call.stealPrev s n d)) pk
                (hooksBefore cfg.hooks s n d st) with
            | fatal e => rw [hex] at h; cases h
            | ok p =>
              rw [hex] at h
              obtain ⟨cid2, st2⟩ := p
              dsimp only [finishPass] at h
              cases hha : hooksAfter s n d cid2 cfg.hooks st2 with
              | fatal e => rw [hha] at h; cases h
              | ok st3 =>
                rw [hha] at h
                cases h
                have hb1 : BuildInv (hooksBefore cfg.hooks s n d st) := hb
                have hb2 : BuildInv st2 :=
                  execKind_buildInv (fun st₀ q hq hbq => ih _ _ _ _ hq hbq) pk _ cid st2 hex hb1
                obtain ⟨_, _, hbc, hbl, _⟩ := hooksAfter_fields cfg.hooks st2 st3 hha
                exact ⟨by rw [hbc, hbl]; exact hb2.1, by rw [hbl]; exact hb2.2⟩

/-! Claim theorems. -/

/-- C1: previous-stage resolution by `steal_previous_mir` follows the
strict one-step-backward rule: if `pass_num > 0` it resolves the pass at
`(pass_set, pass_num - 1)` for the same unit; otherwise if `pass_set > 0`
it resolves the last pass of pass-set `pass_set - 1` via `mir_pass_set`;
otherwise it delegates to the external builder `mir_build` for the
unit. -/
theorem C1_steal_previous_backward (cfg : Config) (s n d : Nat) (st : PState) :
    steal_previous_mir cfg s n d st =
      if n > 0 then mir_pass cfg s (n - 1) d st
      else if s > 0 then mir_pass_set cfg (s - 1) d st
      else mir_build cfg d st :=
  run_steal_eq cfg s n d st

/-- C2: `optimized_mir` first obtains the last pass-set's artifact and
then performs the finalization check (acquire and immediately release a
shared read): it fails fatally if and only if an exclusive borrow is
outstanding on that cell at that moment, and otherwise returns that same
cell with its borrow state unchanged. -/
theorem C2_finalization_check (cfg : Config) (d : Nat) (st : PState) (cid : Nat) (st' : PState)
    (h : mir_pass_set cfg (MIR_OPTIMIZED cfg) d st = Res.ok (cid, st'))
    (c : Cell) (hc : st'.cells[cid]? = some c) :
    (optimized_mir cfg d st = Res.fatal Fatal.borrowViolation ↔
      c.state = BorrowState.exclusive) ∧
    (c.state ≠ BorrowState.exclusive → optimized_mir cfg d st = Res.ok (cid, st')) := by
  constructor
  · constructor
    · intro hf
      by_contra hne
      rw [optimized_ok h hc hne] at hf
      cases hf
    · intro hexc
      exact optimized_fatal h hc hexc
  · intro hne
    exact optimized_ok h hc hne

theorem C2_witness :
    (optimized_mir cfgChain 0 st0 = Res.fatal Fatal.borrowViolation ↔
      (⟨13, BorrowState.free⟩ : Cell).state = BorrowState.exclusive) ∧
    ((⟨13, BorrowState.free⟩ : Cell).state ≠ BorrowState.exclusive →
      optimized_mir cfgChain 0 st0 = Res.ok (0, stChainFinal)) :=
  C2_finalization_check cfgChain 0 st0 0 stChainFinal (by decide)
    ⟨13, BorrowState.free⟩ (by decide)

/-- C3, counterexample: in the `[[A, B], [C]]` scenario (every pass
consuming its predecessor) the hooks do not fire in the claimed strictly
ascending adjacent-pair order `before(0,0) after(0,0) before(0,1)
after(0,1) before(1,0) after(1,0)`: each triple below is
(is-before, pass-set, pass-index) of one logged notification. -/
theorem C3_hook_order_counterexample :
    optimized_mir cfgChain 0 st0 = Res.ok (0, stChainFinal) ∧
    stChainFinal.hookLog.map (fun e => (e.view.isNone, e.pass_set, e.pass_num)) ≠
      [(true, 0, 0), (false, 0, 0), (true, 0, 1), (false, 0, 1), (true, 1, 0), (false, 1, 0)] := by
  decide

/-- C3, amended: for pass-sets `[[A, B], [C]]` with passes that consume
the previous artifact, a request for the final artifact of unit `u1`
produces the nested hook order `before(1,0) before(0,1) before(0,0)
after(0,0) after(0,1) after(1,0)`: before-notifications fire outermost
stage first (demand order), after-notifications fire in strictly
ascending (pass-set, pass-index) order (completion order), each stage's
before preceding its after, and the builder is invoked exactly once for
`u1`. -/
theorem C3_hook_order_amended :
    optimized_mir cfgChain 0 st0 = Res.ok (0, stChainFinal) ∧
    stChainFinal.hookLog.map (fun e => (e.view.isNone, e.pass_set, e.pass_num)) =
      [(true, 1, 0), (true, 0, 1), (true, 0, 0), (false, 0, 0), (false, 0, 1), (false, 1, 0)] ∧
    stChainFinal.buildLog = [0] := by
  decide

/-- C4, counterexample: after `steal_previous_mir` succeeds at pass-set 1,
index 0, the returned cell is still free and both a shared and an
exclusive acquisition by another holder succeed, so the accessor by
itself grants no exclusive ownership and does not make later
acquisitions fail. -/
theorem C4_steal_exclusivity_counterexample :
    steal_previous_mir cfgFresh 1 0 0 st0 = Res.ok (0, stFreshSteal) ∧
    stFreshSteal.cells[0]? = some ⟨5, BorrowState.free⟩ ∧
    acquireShared (⟨5, BorrowState.free⟩ : Cell) = Res.ok ⟨5, BorrowState.shared 0⟩ ∧
    acquireExclusive (⟨5, BorrowState.free⟩ : Cell) = Res.ok ⟨5, BorrowState.exclusive⟩ := by
  decide

/-- C4, amended: `steal_previous_mir` resolves and returns the previous
stage's cell without acquiring any borrow (on a memoized key the state is
returned unchanged); exclusive ownership arises only when the stealing
pass acquires the exclusive borrow on that cell, and while that borrow is
held any shared or exclusive acquisition fails fatally until it is
released. -/
theorem C4_steal_exclusivity_amended (cfg : Config) (s n d cid : Nat) (st : PState) (c : Cell)
    (hn : n > 0) (hcache : lookupKey (s, n - 1, d) st.passCache = some cid)
    (hexc : c.state = BorrowState.exclusive) :
    steal_previous_mir cfg s n d st = Res.ok (cid, st) ∧
    acquireShared c = Res.fatal Fatal.borrowViolation ∧
    acquireExclusive c = Res.fatal Fatal.borrowViolation ∧
    releaseExclusive c = { c with state := BorrowState.free } := by
  refine ⟨?_, acquireShared_exclusive hexc, ?_, ?_⟩
  · rw [run_steal_eq, if_pos hn, run_pass_eq, hcache]
  · unfold acquireExclusive
    rw [hexc]
  · unfold releaseExclusive
    rw [hexc]

theorem C4_witness :
    steal_previous_mir cfgFresh 0 1 0 stFreshSteal = Res.ok (0, stFreshSteal) ∧
    acquireShared (⟨9, BorrowState.exclusive⟩ : Cell) = Res.fatal Fatal.borrowViolation ∧
    acquireExclusive (⟨9, BorrowState.exclusive⟩ : Cell) = Res.fatal Fatal.borrowViolation ∧
    releaseExclusive (⟨9, BorrowState.exclusive⟩ : Cell) = ⟨9, BorrowState.free⟩ :=
  C4_steal_exclusivity_amended cfgFresh 0 1 0 0 stFreshSteal ⟨9, BorrowState.exclusive⟩
    (by decide) (by decide) (by decide)

/-- C5: in a single (cache-miss) execution of the `mir_pass` resolver for
a key, every registered hook is notified exactly twice with that key's
context, in registration order each time: once with no artifact before
the pass runs, once after completion with a shared view of the produced
artifact's content, and the produced cell is recorded and returned. -/
theorem C5_hook_notification (cfg : Config) (s n d : Nat) (st : PState) (cid : Nat) (st' : PState)
    (hmiss : lookupKey (s, n, d) st.passCache = none)
    (h : mir_pass cfg s n d st = Res.ok (cid, st'))
    (c : Cell) (hc : st'.cells[cid]? = some c) :
    (st'.hookLog.drop st.hookLog.length).filter
        (fun e => e.pass_set == s && e.pass_num == n && e.def_id == d) =
      cfg.hooks.map (fun h => (⟨h, s, n, d, none⟩ : HookEvent)) ++
        cfg.hooks.map (fun h => (⟨h, s, n, d, some c.mir⟩ : HookEvent)) ∧
    lookupKey (s, n, d) st'.passCache = some cid := by
  rw [run_pass_eq, hmiss] at h
  dsimp only at h
  unfold mir_pass_provider at h
  cases hps : cfg.passes[s]? with
  | none => rw [hps] at h; cases h
  | some set =>
    rw [hps] at h
    dsimp only at h
    cases hpk : set[n]? with
    | none => rw [hpk] at h; cases h
    | some pk =>
      rw [hpk] at h
      dsimp only at h
      cases hex : execKind (steal_previous_mir cfg s n d) pk (hooksBefore cfg.hooks s n d st) with
      | fatal e => rw [hex] at h; cases h
      | ok p =>
        rw [hex] at h
        obtain ⟨cid2, st2⟩ := p
        dsimp only [finishPass] at h
        cases hha : hooksAfter s n d cid2 cfg.hooks st2 with
        | fatal e => rw [hha] at h; cases h
        | ok st3 =>
          rw [hha] at h
          cases h
          obtain ⟨hcells3, _, _, _, _⟩ := hooksAfter_fields cfg.hooks st2 st3 hha
          have hc2 : st2.cells[cid]? = some c := by
            rw [← hcells3]
            exact hc
          have hlog3 := hooksAfter_content cfg.hooks st2 st3 c hha hc2
          have hprev : ∀ st₀ q, steal_previous_mir cfg s n d st₀ = Res.ok q →
              ∃ L, q.2.hookLog = st₀.hookLog ++ L ∧
                ∀ e ∈ L, evPos cfg e < setsBefore cfg s + n := by
            intro st₀ q hq
            exact runF_log cfg _ _ _ _ _ hq
          obtain ⟨L2, hL2a, hL2b⟩ := execKind_log hprev pk _ cid st2 hex
          constructor
          · rw [hlog3, hL2a]
            simp only [hooksBefore, List.append_assoc]
            rw [List.drop_left]
            rw [List.filter_append, List.filter_append]
            have hfb : (cfg.hooks.map (fun h => (⟨h, s, n, d, none⟩ : HookEvent))).filter
                (fun e => e.pass_set == s && e.pass_num == n && e.def_id == d) =
                cfg.hooks.map (fun h => (⟨h, s, n, d, none⟩ : HookEvent)) := by
              apply List.filter_eq_self.mpr
              intro e he
              obtain ⟨h0, _, rfl⟩ := List.mem_map.mp he
              simp
            have hfm : L2.filter
                (fun e => e.pass_set == s && e.pass_num == n && e.def_id == d) = [] := by
              apply List.filter_eq_nil_iff.mpr
              intro e he hpred
              have hlt := hL2b e he
              simp only [Bool.and_eq_true, beq_iff_eq] at hpred
              rw [evPos, hpred.1.1, hpred.1.2] at hlt
              omega
            have hfa : (cfg.hooks.map (fun h => (⟨h, s, n, d, some c.mir⟩ : HookEvent))).filter
                (fun e => e.pass_set == s && e.pass_num == n && e.def_id == d) =
                cfg.hooks.map (fun h => (⟨h, s, n, d, some c.mir⟩ : HookEvent)) := by
              apply List.filter_eq_self.mpr
              intro e he
              obtain ⟨h0, _, rfl⟩ := List.mem_map.mp he
              simp
            rw [hfb, hfm, hfa]
            simp
          · simp [lookupKey]

theorem C5_witness :
    (stHooks.hookLog.drop st0.hookLog.length).filter
        (fun e => e.pass_set == 0 && e.pass_num == 0 && e.def_id == 0) =
      cfgHooks.hooks.map (fun h => (⟨h, 0, 0, 0, none⟩ : HookEvent)) ++
        cfgHooks.hooks.map (fun h => (⟨h, 0, 0, 0, some 5⟩ : HookEvent)) ∧
    lookupKey (0, 0, 0) stHooks.passCache = some 0 :=
  C5_hook_notification cfgHooks 0 0 0 st0 0 stHooks (by decide) (by decide)
    ⟨5, BorrowState.free⟩ (by decide)

/-- C6: `mir_pass_set` fails fatally, before any pass is invoked and any
hook fires, when the named pass-set is configured with zero passes;
otherwise it resolves to the artifact of the last pass in the set. -/
theorem C6_empty_pass_set (cfg : Config) (s d : Nat) (st : PState) (set : List PassKind)
    (hs : cfg.passes[s]? = some set) :
    (set.length = 0 → mir_pass_set cfg s d st = Res.fatal (Fatal.emptyPassSet s)) ∧
    (set.length > 0 → mir_pass_set cfg s d st = mir_pass cfg s (set.length - 1) d st) := by
  constructor
  · intro hlen
    rw [run_passSet_eq, hs]
    dsimp only
    rw [if_neg (by omega)]
  · intro hlen
    rw [run_passSet_eq, hs]
    dsimp only
    rw [if_pos hlen]

theorem C6_witness :
    mir_pass_set cfgEmpty 0 0 st0 = Res.fatal (Fatal.emptyPassSet 0) ∧
    mir_pass_set cfgChain 0 0 st0 = mir_pass cfgChain 0 1 0 st0 :=
  ⟨(C6_empty_pass_set cfgEmpty 0 0 st0 [] rfl).1 rfl,
   (C6_empty_pass_set cfgChain 0 0 st0
      [PassKind.stealPrev (· + 1), PassKind.stealPrev (· + 1)] rfl).2 (by decide)⟩

/-- C7: the `source()` accessor fails fatally when the context's unit has
no local definition, and for a locally defined unit returns the site
metadata derived from its local node; it never returns a degraded result
for a non-local unit. -/
theorem C7_source_locality (cfg : Config) (d : Nat) :
    (cfg.localNode d = none → source cfg d = Res.fatal (Fatal.nonLocalUnit d)) ∧
    (∀ nid, cfg.localNode d = some nid → source cfg d = Res.ok (cfg.sourceFromNode nid)) := by
  constructor
  · intro h
    unfold source
    rw [h]
  · intro nid h
    unfold source
    rw [h]

theorem C7_witness :
    source cfgLocal 0 = Res.fatal (Fatal.nonLocalUnit 0) ∧
    source cfgLocal 1 = Res.ok 107 :=
  ⟨(C7_source_locality cfgLocal 0).1 rfl, (C7_source_locality cfgLocal 1).2 7 rfl⟩

/-- C8: resolving the final artifact a second time recomputes nothing:
the second call returns the identical cell and leaves the state (hook
log included, hence zero additional hook invocations and identical
artifact content) exactly as the first call left it. -/
theorem C8_idempotence (cfg : Config) (d : Nat) (st : PState) (cid : Nat) (st₁ : PState)
    (h : optimized_mir cfg d st = Res.ok (cid, st₁)) :
    optimized_mir cfg d st₁ = Res.ok (cid, st₁) := by
  obtain ⟨hps, c, hc, hne⟩ := optimized_inv h
  rw [run_passSet_eq] at hps
  cases hset : cfg.passes[MIR_OPTIMIZED cfg]? with
  | none => rw [hset] at hps; cases hps
  | some set =>
    rw [hset] at hps
    dsimp only at hps
    by_cases hlen : set.length > 0
    · rw [if_pos hlen] at hps
      have hcache := mir_pass_lookup hps
      have hsecond : mir_pass_set cfg (MIR_OPTIMIZED cfg) d st₁ = Res.ok (cid, st₁) := by
        rw [run_passSet_eq, hset]
        dsimp only
        rw [if_pos hlen, run_pass_eq, hcache]
      exact optimized_ok hsecond hc hne
    · rw [if_neg hlen] at hps
      cases hps

theorem C8_witness : optimized_mir cfgChain 0 stChainFinal = Res.ok (0, stChainFinal) :=
  C8_idempotence cfgChain 0 st0 0 stChainFinal (by decide)

/-- C9: the external builder is invoked at most once per unit: every
resolver run preserves the builder-memo invariant, under which the log of
actual builder invocations stays duplicate-free, so once a unit's initial
artifact is built, later transitive requests never re-invoke the
builder. -/
theorem C9_builder_once (cfg : Config) (c : Call) (st : PState) (cid : Nat) (st' : PState)
    (hb : BuildInv st) (h : run cfg c st = Res.ok (cid, st')) :
    BuildInv st' ∧ ∀ u, st'.buildLog.count u ≤ 1 := by
  have hi : BuildInv st' := runF_buildInv cfg _ c st cid st' h hb
  exact ⟨hi, fun u => List.nodup_iff_count_le_one.mp hi.2 u⟩

theorem C9_witness :
    BuildInv st0 ∧ run cfgChain (Call.passSet 1 0) st0 = Res.ok (0, stChainFinal) ∧
    (BuildInv stChainFinal ∧ ∀ u, stChainFinal.buildLog.count u ≤ 1) :=
  ⟨by decide, by decide,
   C9_builder_once cfgChain (Call.passSet 1 0) st0 0 stChainFinal (by decide) (by decide)⟩

/-- C10: `read_previous_mir` is definitionally the shared borrow of the
very cell `steal_previous_mir` returns, so both accessors resolve the
same previous-stage cell; the read acquires only a shared (never
exclusive) borrow and fails fatally exactly when that cell is currently
exclusively borrowed. -/
theorem C10_read_is_steal_borrow (cfg : Config) (s n d : Nat) (st : PState) :
    read_previous_mir cfg s n d st =
      (match steal_previous_mir cfg s n d st with
       | Res.fatal e => Res.fatal e
       | Res.ok (cid, st') => borrowRef cid st') ∧
    ∀ cid st' c, steal_previous_mir cfg s n d st = Res.ok (cid, st') →
      st'.cells[cid]? = some c →
      ((c.state = BorrowState.exclusive →
          read_previous_mir cfg s n d st = Res.fatal Fatal.borrowViolation) ∧
       (c.state ≠ BorrowState.exclusive → ∃ k,
          acquireShared c = Res.ok { c with state := BorrowState.shared k } ∧
          read_previous_mir cfg s n d st =
            Res.ok (cid, { st' with
              cells := st'.cells.set cid { c with state := BorrowState.shared k } }))) := by
  constructor
  · rfl
  · intro cid st' c hsteal hc
    constructor
    · intro hexc
      unfold read_previous_mir
      rw [hsteal]
      dsimp only
      unfold borrowRef
      rw [hc]
      dsimp only
      rw [acquireShared_exclusive hexc]
    · intro hne
      obtain ⟨k, hk⟩ := acquireShared_not_exclusive hne
      refine ⟨k, hk, ?_⟩
      unfold read_previous_mir
      rw [hsteal]
      dsimp only
      unfold borrowRef
      rw [hc]
      dsimp only
      rw [hk]

theorem C10_witness :
    ((⟨5, BorrowState.free⟩ : Cell).state = BorrowState.exclusive →
        read_previous_mir cfgFresh 1 0 0 st0 = Res.fatal Fatal.borrowViolation) ∧
    ((⟨5, BorrowState.free⟩ : Cell).state ≠ BorrowState.exclusive → ∃ k,
        acquireShared (⟨5, BorrowState.free⟩ : Cell) =
          Res.ok { (⟨5, BorrowState.free⟩ : Cell) with state := BorrowState.shared k } ∧
        read_previous_mir cfgFresh 1 0 0 st0 =
          Res.ok (0, { stFreshSteal with
            cells := stFreshSteal.cells.set 0
              { (⟨5, BorrowState.free⟩ : Cell) with state := BorrowState.shared k } })) :=
  (C10_read_is_steal_borrow cfgFresh 1 0 0 st0).2 0 stFreshSteal ⟨5, BorrowState.free⟩
    (by decide) (by decide)

end MirTransform
